import Mathlib

/-!
Verification of the streak / contributor statistics scripts.

Shallow embedding conventions:
* Calendar dates (ISO `YYYY-MM-DD` strings in the scripts) are modelled as
  epoch day numbers (`Nat`, days since 1970-01-01).  Lexicographic comparison
  of valid ISO date strings agrees with `<` on day numbers, `===` agrees with
  `=`, and "the next calendar day" is `+ 1`.  In particular
  2024-01-01 ↦ 19723, 2024-01-02 ↦ 19724, 2024-01-03 ↦ 19725,
  2024-01-04 ↦ 19726, 2024-01-05 ↦ 19727.
* Contribution counts are non-negative integers, modelled as `Nat`.
* `new Date().toISOString().slice(0, 10)` (the current date) is passed as an
  explicit `today : Nat` parameter.
* `Array.prototype.sort` with the comparator
  `(a, b) => (a.date < b.date ? -1 : 1)` never returns `0`, so ECMAScript
  leaves the relative order of equal-date entries implementation defined;
  engines use a stable sort and place an element after earlier-seen elements
  it does not compare below, which is modelled by a left-to-right stable
  insertion sort (`sortDays`).
-/

/-- One `{ date, count }` record pushed by `fetchYear` in
`generate-streak-stats.js`. -/
structure ContributionDay where
  date : Nat
  count : Nat
deriving DecidableEq, Repr

/-- The record returned by `computeStreaks` in `generate-streak-stats.js`.
`null` date markers are `Option.none`. -/
structure StreakStats where
  totalContributions : Nat
  currentStreak : Nat
  currentStreakStart : Option Nat
  currentStreakEnd : Option Nat
  longestStreak : Nat
  longestStreakStart : Option Nat
  longestStreakEnd : Option Nat
  firstContribDate : Nat
deriving DecidableEq, Repr

/-- Insert a day into an already-processed list, before the first entry with a
strictly larger date (so equal-date entries keep their first-seen order). -/
def insertDay (x : ContributionDay) : List ContributionDay → List ContributionDay
  | [] => [x]
  | y :: ys => if x.date < y.date then x :: y :: ys else y :: insertDay x ys

/-- `days.sort((a, b) => (a.date < b.date ? -1 : 1))`: stable sort ascending
by date. -/
def sortDays (days : List ContributionDay) : List ContributionDay :=
  days.foldl (fun acc x => insertDay x acc) []

/-- The mutable locals of the forward pass of `computeStreaks`. -/
structure ForwardState where
  total : Nat
  longest : Nat
  longestStart : Option Nat
  longestEnd : Option Nat
  run : Nat
  runStart : Option Nat
  firstContrib : Option Nat
deriving DecidableEq, Repr

/-- Initial values of the forward-pass locals. -/
def initForward : ForwardState :=
  { total := 0, longest := 0, longestStart := none, longestEnd := none,
    run := 0, runStart := none, firstContrib := none }

/-- One iteration of the forward loop `for (const day of days)` in
`computeStreaks`. -/
def forwardStep (s : ForwardState) (day : ContributionDay) : ForwardState :=
  if 0 < day.count then
    let firstContrib := match s.firstContrib with
      | none => some day.date
      | some d => some d
    let runStart := if s.run = 0 then some day.date else s.runStart
    let run := s.run + 1
    if s.longest < run then
      { total := s.total + day.count, longest := run, longestStart := runStart,
        longestEnd := some day.date, run := run, runStart := runStart,
        firstContrib := firstContrib }
    else
      { s with total := s.total + day.count, run := run, runStart := runStart,
               firstContrib := firstContrib }
  else
    { s with total := s.total + day.count, run := 0, runStart := none }

/-- The backward loop of `computeStreaks` after the possible skip of the last
entry: accumulates `(currentStreak, currentStreakStart, currentStreakEnd)`
over the days listed most-recent first, stopping (`break`) at the first
zero-count day. -/
def scanCurrentAux : List ContributionDay → Nat → Option Nat → Option Nat →
    Nat × Option Nat × Option Nat
  | [], n, s, e => (n, s, e)
  | day :: rest, n, s, e =>
    if 0 < day.count then
      scanCurrentAux rest (n + 1) (some day.date)
        (match e with | none => some day.date | some d => some d)
    else
      (n, s, e)

/-- The backward loop `for (let i = days.length - 1; i >= 0; i--)` of
`computeStreaks`: the last entry is skipped exactly when its date is `today`
and its count is zero (`i === days.length - 1` holds only on the first
iteration). -/
def computeCurrent (today : Nat) (sorted : List ContributionDay) :
    Nat × Option Nat × Option Nat :=
  match sorted.reverse with
  | [] => (0, none, none)
  | day :: rest =>
    if day.date = today ∧ day.count = 0 then
      scanCurrentAux rest 0 none none
    else
      scanCurrentAux (day :: rest) 0 none none

/-- Body of `computeStreaks` after the in-place sort. -/
def streaksOfSorted (today : Nat) (sorted : List ContributionDay) : StreakStats :=
  let f := sorted.foldl forwardStep initForward
  let cur := computeCurrent today sorted
  { totalContributions := f.total
    currentStreak := cur.1
    currentStreakStart := cur.2.1
    currentStreakEnd := cur.2.2
    longestStreak := f.longest
    longestStreakStart := f.longestStart
    longestStreakEnd := f.longestEnd
    firstContribDate :=
      f.firstContrib.getD (((sorted.head?).map ContributionDay.date).getD today) }

/-- `computeStreaks` from `generate-streak-stats.js`: sort the days in place,
then run the forward (totals / longest streak) and backward (current streak)
passes.  `firstContribDate` falls back to `days[0]?.date` and then `today`. -/
def computeStreaks (today : Nat) (days : List ContributionDay) : StreakStats :=
  streaksOfSorted today (sortDays days)

/-! Helper functions on bare count sequences, used to reason about the two
passes of `computeStreaks`. -/

/-- Length of the all-positive suffix of a count sequence, extended by one
count: the update of the `runStreak` local. -/
def tailStep (r : Nat) (c : Nat) : Nat := if 0 < c then r + 1 else 0

/-- Length of the maximal all-positive suffix of a count sequence. -/
def tailRun (cs : List Nat) : Nat := cs.foldl tailStep 0

/-- Joint update of the `(longestStreak, runStreak)` locals by one count. -/
def lrStep (p : Nat × Nat) (c : Nat) : Nat × Nat :=
  let r := tailStep p.2 c
  (if p.1 < r then r else p.1, r)

/-- The `longestStreak` value computed by the forward pass, as a function of
the count sequence alone. -/
def longestRun (cs : List Nat) : Nat := (cs.foldl lrStep (0, 0)).1

/-- The day series with counts `cs` on the consecutive calendar days
`d0, d0 + 1, …`: the canonical gap-free series with one entry per date. -/
def mkSeries (d0 : Nat) : List Nat → List ContributionDay
  | [] => []
  | c :: cs => ⟨d0, c⟩ :: mkSeries (d0 + 1) cs

/-- Following the spec glossary: day `t` is a contribution day of the series
when some entry carries date `t` with at least one contribution. -/
def hasContrib (days : List ContributionDay) (t : Nat) : Bool :=
  days.any fun d => d.date == t && decide (0 < d.count)

/-- Following the spec glossary: the length of the run of consecutive
contribution days of the series that ends at day `t` (0 when `t` itself is
not a contribution day). -/
def runLenAt (days : List ContributionDay) : Nat → Nat
  | 0 => if hasContrib days 0 then 1 else 0
  | t + 1 => if hasContrib days (t + 1) then runLenAt days t + 1 else 0

/-- Following the spec glossary ("a maximal run of consecutive calendar days
each having at least one contribution"): the length of the longest such run.
Every maximal run ends at the date of some entry, so the maximum of
`runLenAt` over the entry dates is exactly the longest streak length. -/
def specLongestStreak (days : List ContributionDay) : Nat :=
  (days.map fun d => runLenAt days d.date).foldr Nat.max 0

/-- Following the spec of the backward pass: reading the series most-recent
first, skip the leading entry exactly when it is today with count zero, then
count the consecutive nonzero-count entries up to the first zero count. -/
def specCurrentStreak (today : Nat) (days : List ContributionDay) : Nat :=
  let r := days.reverse
  let r2 := match r with
    | [] => ([] : List ContributionDay)
    | d :: rest => if d.date = today ∧ d.count = 0 then rest else d :: rest
  (r2.takeWhile fun d => decide (0 < d.count)).length

/-! The day-deduplication loop of `main` in `generate-streak-stats.js`.
The JS `Map` keeps a key at its first-insertion position and `set` replaces
the value in place, modelled by an ordered association list. -/

/-- One iteration of `for (const day of allDays)`:
`if (!existing || day.count > existing.count) dayMap.set(day.date, day)`. -/
def upsertDay (acc : List ContributionDay) (day : ContributionDay) :
    List ContributionDay :=
  match acc.find? (fun e => e.date == day.date) with
  | none => acc ++ [day]
  | some e =>
    if e.count < day.count then
      acc.map fun x => if x.date == day.date then day else x
    else acc

/-- `[...dayMap.values()]` after the deduplication loop. -/
def dedupDays (allDays : List ContributionDay) : List ContributionDay :=
  allDays.foldl upsertDay []

/-- The maximum count observed for date `t` in a list of fetched days. -/
def maxCountFor (allDays : List ContributionDay) (t : Nat) : Nat :=
  ((allDays.filter fun d => d.date == t).map ContributionDay.count).foldr Nat.max 0

/-! The repository pipeline of `generate-contributor-stats.js`. -/

/-- The value stored in `repoMap`: `{ nameWithOwner, url, stars,
contributions }`.  The placeholder row is built without a `url` field
(JS `undefined`), so `url` is an `Option`. -/
structure RepoContribution where
  nameWithOwner : String
  url : Option String
  stars : Nat
  contributions : Nat
deriving DecidableEq, Repr

/-- One `commitContributionsByRepository` entry of a year window's
response. -/
structure RepoEntry where
  nameWithOwner : String
  url : String
  stargazerCount : Nat
  isPrivate : Bool
  totalCount : Nat
deriving DecidableEq, Repr

/-- One iteration of `for (const entry of repos)` in `main`: skip private
repositories; on a key collision add `entry.contributions.totalCount` to the
existing record's `contributions`; otherwise insert a fresh record. -/
def upsertRepo (acc : List RepoContribution) (e : RepoEntry) :
    List RepoContribution :=
  if e.isPrivate then acc
  else
    match acc.find? (fun r => r.nameWithOwner == e.nameWithOwner) with
    | some _ =>
      acc.map fun r =>
        if r.nameWithOwner == e.nameWithOwner then
          { r with contributions := r.contributions + e.totalCount }
        else r
    | none =>
      acc ++ [{ nameWithOwner := e.nameWithOwner, url := some e.url,
                stars := e.stargazerCount, contributions := e.totalCount }]

/-- The year-loop accumulation into `repoMap`, flattened over the concatenated
per-year entry lists (`[...repoMap.values()]` preserves first-insertion
order). -/
def mergeRepos (entries : List RepoEntry) : List RepoContribution :=
  entries.foldl upsertRepo []

/-- The ordering used by `.sort((a, b) => b.contributions - a.contributions)`:
`a` precedes `b` when the comparator is non-positive. -/
def contribGE (a b : RepoContribution) : Prop :=
  b.contributions ≤ a.contributions

instance : DecidableRel contribGE := fun _a _b => Nat.decLe _ _

instance : IsTotal RepoContribution contribGE :=
  ⟨fun a b => Nat.le_total b.contributions a.contributions⟩

instance : IsTrans RepoContribution contribGE :=
  ⟨fun _a _b _c h1 h2 => Nat.le_trans h2 h1⟩

/-- `[...repoMap.values()].sort((a, b) => b.contributions - a.contributions)`:
the comparator is consistent, and ECMAScript requires the sort to be stable,
which the insertion sort by `contribGE` is. -/
def sortRepos (repos : List RepoContribution) : List RepoContribution :=
  repos.insertionSort contribGE

/-- The non-private occurrences of a repository name in the concatenated
per-year entry lists, in fetch order. -/
def occs (entries : List RepoEntry) (name : String) : List RepoEntry :=
  entries.filter fun e => !e.isPrivate && e.nameWithOwner == name

/-- The parsed command-line limit, `parseInt(process.argv[3] || "5", 10)`:
either an integer or `NaN`. -/
inductive JsNumber where
  | nan : JsNumber
  | int : Int → JsNumber
deriving DecidableEq, Repr

/-- The effective end index of `.slice(0, LIMIT)` on a list of length `len`
(ECMAScript `ToIntegerOrInfinity` plus clamping: `NaN` becomes `0`, a
negative end counts back from the end of the array). -/
def sliceEnd (len : Nat) (limit : JsNumber) : Nat :=
  match limit with
  | .nan => 0
  | .int k => if 0 ≤ k then min k.toNat len else len - (-k).toNat

/-- `sort`ed and `.slice(0, LIMIT)`-truncated repository ranking. -/
def rankTop (limit : JsNumber) (repos : List RepoContribution) :
    List RepoContribution :=
  let sorted := sortRepos repos
  sorted.take (sliceEnd sorted.length limit)

/-- The placeholder row pushed when `sorted.length === 0`. -/
def placeholderRepo : RepoContribution :=
  { nameWithOwner := "No contributions found", url := none, stars := 0,
    contributions := 0 }

/-- The list handed to `generateSvg`: the ranking, or the placeholder when
the ranking is empty. -/
def finalRepos (limit : JsNumber) (repos : List RepoContribution) :
    List RepoContribution :=
  let sorted := rankTop limit repos
  if sorted.isEmpty then [placeholderRepo] else sorted


/-! ### Properties of the day sort -/

theorem insertDay_perm (x : ContributionDay) (l : List ContributionDay) :
    List.Perm (insertDay x l) (x :: l) := by
  induction l with
  | nil => exact List.Perm.refl _
  | cons y ys ih =>
    by_cases h : x.date < y.date
    · rw [insertDay, if_pos h]
    · rw [insertDay, if_neg h]
      exact (ih.cons y).trans (List.Perm.swap x y ys)

theorem sortDays_perm_aux (l : List ContributionDay) :
    ∀ acc, List.Perm (l.foldl (fun acc x => insertDay x acc) acc) (acc ++ l) := by
  induction l with
  | nil => intro acc; simp
  | cons x xs ih =>
    intro acc
    rw [List.foldl_cons]
    have h1 := ih (insertDay x acc)
    have h2 : List.Perm (insertDay x acc ++ xs) ((x :: acc) ++ xs) :=
      (insertDay_perm x acc).append_right xs
    have h3 : List.Perm ((x :: acc) ++ xs) (acc ++ x :: xs) :=
      List.perm_middle.symm
    exact (h1.trans h2).trans h3

theorem sortDays_perm (l : List ContributionDay) : List.Perm (sortDays l) l := by
  simpa using sortDays_perm_aux l []

theorem insertDay_pairwise {x : ContributionDay} {l : List ContributionDay}
    (h : l.Pairwise fun a b => a.date ≤ b.date) :
    (insertDay x l).Pairwise fun a b => a.date ≤ b.date := by
  induction l with
  | nil => simp [insertDay]
  | cons y ys ih =>
    rcases List.pairwise_cons.mp h with ⟨hy, hys⟩
    by_cases hxy : x.date < y.date
    · rw [insertDay, if_pos hxy]
      refine List.pairwise_cons.mpr ⟨?_, h⟩
      intro z hz
      rcases List.mem_cons.mp hz with rfl | hz
      · omega
      · exact Nat.le_trans (Nat.le_of_lt hxy) (hy z hz)
    · rw [insertDay, if_neg hxy]
      refine List.pairwise_cons.mpr ⟨?_, ih hys⟩
      intro z hz
      rcases List.mem_cons.mp ((insertDay_perm x ys).mem_iff.mp hz) with rfl | hz
      · omega
      · exact hy z hz

theorem sortDays_pairwise_aux (l : List ContributionDay) :
    ∀ acc, (acc.Pairwise fun a b => a.date ≤ b.date) →
      (l.foldl (fun acc x => insertDay x acc) acc).Pairwise
        fun a b => a.date ≤ b.date := by
  induction l with
  | nil => intro acc h; exact h
  | cons x xs ih => intro acc h; exact ih _ (insertDay_pairwise h)

theorem sortDays_pairwise (l : List ContributionDay) :
    (sortDays l).Pairwise fun a b => a.date ≤ b.date :=
  sortDays_pairwise_aux l [] List.Pairwise.nil

theorem pairwise_lt_of_le_of_nodup {l : List ContributionDay}
    (hs : l.Pairwise fun a b => a.date ≤ b.date)
    (hn : (l.map ContributionDay.date).Nodup) :
    l.Pairwise fun a b => a.date < b.date :=
  (hs.and (List.pairwise_map.mp hn)).imp fun h => Nat.lt_of_le_of_ne h.1 h.2

theorem sortDays_pairwise_lt {l : List ContributionDay}
    (hn : (l.map ContributionDay.date).Nodup) :
    (sortDays l).Pairwise fun a b => a.date < b.date := by
  refine pairwise_lt_of_le_of_nodup (sortDays_pairwise l) ?_
  exact (((sortDays_perm l).map ContributionDay.date).nodup_iff).mpr hn

theorem sortDays_eq_of_perm {l₁ l₂ : List ContributionDay}
    (hp : List.Perm l₁ l₂) (hn : (l₁.map ContributionDay.date).Nodup) :
    sortDays l₁ = sortDays l₂ := by
  haveI : IsAntisymm ContributionDay (fun a b => a.date < b.date) :=
    ⟨fun a b h1 h2 => absurd h1 (Nat.lt_asymm h2)⟩
  have hn₂ : (l₂.map ContributionDay.date).Nodup :=
    ((hp.map ContributionDay.date).nodup_iff).mp hn
  exact List.eq_of_perm_of_sorted
    ((sortDays_perm l₁).trans (hp.trans (sortDays_perm l₂).symm))
    (sortDays_pairwise_lt hn) (sortDays_pairwise_lt hn₂)

theorem sortDays_eq_self {l : List ContributionDay}
    (h : l.Pairwise fun a b => a.date < b.date) : sortDays l = l := by
  haveI : IsAntisymm ContributionDay (fun a b => a.date < b.date) :=
    ⟨fun a b h1 h2 => absurd h1 (Nat.lt_asymm h2)⟩
  have hn : (l.map ContributionDay.date).Nodup :=
    List.pairwise_map.mpr (h.imp fun hab => Nat.ne_of_lt hab)
  exact List.eq_of_perm_of_sorted (sortDays_perm l) (sortDays_pairwise_lt hn) h

/-! ### Characterizing the backward pass -/

theorem scanCurrentAux_fst (l : List ContributionDay) :
    ∀ (n : Nat) (s e : Option Nat),
      (scanCurrentAux l n s e).1 =
        n + (l.takeWhile fun d => decide (0 < d.count)).length := by
  induction l with
  | nil => intro n s e; simp [scanCurrentAux]
  | cons day rest ih =>
    intro n s e
    by_cases h : 0 < day.count
    · simp only [scanCurrentAux, if_pos h, ih]
      simp [List.takeWhile_cons, h]
      omega
    · simp only [scanCurrentAux, if_neg h]
      simp [List.takeWhile_cons, h]

theorem computeStreaks_currentStreak (today : Nat) (days : List ContributionDay) :
    (computeStreaks today days).currentStreak =
      specCurrentStreak today (sortDays days) := by
  show (computeCurrent today (sortDays days)).1 = _
  unfold computeCurrent specCurrentStreak
  cases hrev : (sortDays days).reverse with
  | nil => simp
  | cons day rest =>
    by_cases hskip : day.date = today ∧ day.count = 0
    · simp only [if_pos hskip, scanCurrentAux_fst, Nat.zero_add]
    · simp only [if_neg hskip, scanCurrentAux_fst, Nat.zero_add]

/-- C4: for every sorted day series with at most one entry per date
(strictly increasing dates), `computeStreaks` sets `currentStreak` to the
number of trailing consecutive entries with nonzero count, where the last
entry is skipped exactly when its date is today and its count is zero, and
the scan stops at the first zero-count entry otherwise encountered. -/
theorem c4_currentStreak_backward_scan {days : List ContributionDay}
    (h : days.Pairwise fun a b => a.date < b.date) (today : Nat) :
    (computeStreaks today days).currentStreak = specCurrentStreak today days := by
  rw [computeStreaks_currentStreak, sortDays_eq_self h]

/-- C4 witness: the backward-scan characterization evaluated on the series
Jan 1 → 1, Jan 2 → 0, Jan 3 → 1 with today = Jan 3 (day numbers 0, 1, 2). -/
theorem c4_witness :
    ([⟨0, 1⟩, ⟨1, 0⟩, ⟨2, 1⟩] : List ContributionDay).Pairwise
        (fun a b => a.date < b.date) ∧
      (computeStreaks 2 [⟨0, 1⟩, ⟨1, 0⟩, ⟨2, 1⟩]).currentStreak =
        specCurrentStreak 2 [⟨0, 1⟩, ⟨1, 0⟩, ⟨2, 1⟩] :=
  ⟨by decide, c4_currentStreak_backward_scan (by decide) 2⟩

/-- C3 counterexample: the two permutations of the same multiset
`{(day 0, count 1), (day 0, count 0)}` (a duplicated date) give different
`StreakStats` — the claim as stated is false. -/
theorem c3_counterexample :
    List.Perm ([⟨0, 1⟩, ⟨0, 0⟩] : List ContributionDay) [⟨0, 0⟩, ⟨0, 1⟩] ∧
      computeStreaks 5 [⟨0, 1⟩, ⟨0, 0⟩] ≠ computeStreaks 5 [⟨0, 0⟩, ⟨0, 1⟩] :=
  ⟨List.Perm.swap _ _ _, by decide⟩

/-- C3 (amended): `computeStreaks` is permutation-invariant for every two
lists that are permutations of the same multiset of (date, count) pairs,
provided the dates in the list are pairwise distinct (which the deduplicated
pipeline input guarantees); with a duplicated date the inconsistent sort
comparator makes the result depend on the input order. -/
theorem c3_amended_perm_invariant {l₁ l₂ : List ContributionDay}
    (hp : List.Perm l₁ l₂) (hn : (l₁.map ContributionDay.date).Nodup)
    (today : Nat) :
    computeStreaks today l₁ = computeStreaks today l₂ := by
  unfold computeStreaks
  rw [sortDays_eq_of_perm hp hn]

/-- C3 witness: permutation invariance evaluated on the two orderings of
`{(day 0, count 1), (day 1, count 2)}`. -/
theorem c3_witness :
    List.Perm ([⟨0, 1⟩, ⟨1, 2⟩] : List ContributionDay) [⟨1, 2⟩, ⟨0, 1⟩] ∧
      (([⟨0, 1⟩, ⟨1, 2⟩] : List ContributionDay).map ContributionDay.date).Nodup ∧
      computeStreaks 1 [⟨0, 1⟩, ⟨1, 2⟩] = computeStreaks 1 [⟨1, 2⟩, ⟨0, 1⟩] :=
  ⟨by decide, by decide, c3_amended_perm_invariant (by decide) (by decide) 1⟩

/-- C1 counterexample: on the series Jan 1 → 1, Jan 2 → 1, Jan 3 → 0,
Jan 4 → 1 with today = Jan 5 (later than the last entry), `computeStreaks`
returns `currentStreak = 1`, not the claimed `0`: the backward scan never
compares the most recent entry's date with today except for the zero-count
skip. -/
theorem c1_counterexample :
    (computeStreaks 19727
        [⟨19723, 1⟩, ⟨19724, 1⟩, ⟨19725, 0⟩, ⟨19726, 1⟩]).currentStreak = 1 ∧
      (computeStreaks 19727
        [⟨19723, 1⟩, ⟨19724, 1⟩, ⟨19725, 0⟩, ⟨19726, 1⟩]).currentStreak ≠ 0 := by
  decide

/-- C1 (amended): on the series Jan 1 → 1, Jan 2 → 1, Jan 3 → 0, Jan 4 → 1,
`computeStreaks` returns `longestStreak = 2` with start Jan 1 and end Jan 2,
and `currentStreak = 1` both when today is Jan 4 and when today is any later
date. -/
theorem c1_amended :
    (computeStreaks 19726
        [⟨19723, 1⟩, ⟨19724, 1⟩, ⟨19725, 0⟩, ⟨19726, 1⟩]).longestStreak = 2 ∧
      (computeStreaks 19726
        [⟨19723, 1⟩, ⟨19724, 1⟩, ⟨19725, 0⟩, ⟨19726, 1⟩]).longestStreakStart =
        some 19723 ∧
      (computeStreaks 19726
        [⟨19723, 1⟩, ⟨19724, 1⟩, ⟨19725, 0⟩, ⟨19726, 1⟩]).longestStreakEnd =
        some 19724 ∧
      (computeStreaks 19726
        [⟨19723, 1⟩, ⟨19724, 1⟩, ⟨19725, 0⟩, ⟨19726, 1⟩]).currentStreak = 1 ∧
      ∀ today, 19726 ≤ today →
        (computeStreaks today
          [⟨19723, 1⟩, ⟨19724, 1⟩, ⟨19725, 0⟩, ⟨19726, 1⟩]).currentStreak = 1 := by
  refine ⟨by decide, by decide, by decide, by decide, ?_⟩
  intro today _
  rw [computeStreaks_currentStreak, sortDays_eq_self (by decide)]
  simp [specCurrentStreak, List.takeWhile_cons]

/-- C1 witness: the amended claim's universally quantified part evaluated at
today = Jan 5. -/
theorem c1_witness :
    (19726 : Nat) ≤ 19727 ∧
      (computeStreaks 19727
        [⟨19723, 1⟩, ⟨19724, 1⟩, ⟨19725, 0⟩, ⟨19726, 1⟩]).currentStreak = 1 :=
  ⟨by decide, c1_amended.2.2.2.2 19727 (by decide)⟩

/-! ### Count-sequence lemmas for the forward pass -/

theorem lrFold_snd (cs : List Nat) :
    ∀ p : Nat × Nat, (cs.foldl lrStep p).2 = cs.foldl tailStep p.2 := by
  induction cs with
  | nil => intro p; rfl
  | cons c cs ih =>
    intro p
    rw [List.foldl_cons, List.foldl_cons, ih]
    rfl

theorem lrStep_snd_le_fst (p : Nat × Nat) (c : Nat) :
    (lrStep p c).2 ≤ (lrStep p c).1 := by
  dsimp [lrStep]
  split <;> omega

theorem lrFold_snd_le_fst (cs : List Nat) :
    ∀ p : Nat × Nat, p.2 ≤ p.1 →
      (cs.foldl lrStep p).2 ≤ (cs.foldl lrStep p).1 := by
  induction cs with
  | nil => intro p h; exact h
  | cons c cs ih =>
    intro p h
    rw [List.foldl_cons]
    exact ih _ (lrStep_snd_le_fst p c)

theorem tailRun_le_longestRun (cs : List Nat) : tailRun cs ≤ longestRun cs := by
  have h := lrFold_snd_le_fst cs (0, 0) (Nat.le_refl 0)
  rw [lrFold_snd] at h
  exact h

theorem longestRun_append_singleton_le (cs : List Nat) (c : Nat) :
    longestRun cs ≤ longestRun (cs ++ [c]) := by
  unfold longestRun
  rw [List.foldl_append]
  dsimp [List.foldl, lrStep]
  split <;> omega

theorem takeWhile_reverse_len (l : List ContributionDay) :
    ((l.reverse).takeWhile fun d => decide (0 < d.count)).length =
      tailRun (l.map ContributionDay.count) := by
  induction l using List.reverseRecOn with
  | nil => simp [tailRun]
  | append_singleton l d ih =>
    rw [List.reverse_append]
    by_cases h : 0 < d.count
    · simp [List.takeWhile_cons, h, ih, tailRun, tailStep,
        List.map_append, List.foldl_append]
    · simp [List.takeWhile_cons, h, tailRun, tailStep,
        List.map_append, List.foldl_append]

theorem forwardFold_lr (l : List ContributionDay) :
    ∀ s : ForwardState,
      (l.foldl forwardStep s).longest =
          (List.foldl lrStep (s.longest, s.run) (l.map ContributionDay.count)).1 ∧
        (l.foldl forwardStep s).run =
          (List.foldl lrStep (s.longest, s.run) (l.map ContributionDay.count)).2 := by
  induction l with
  | nil => intro s; exact ⟨rfl, rfl⟩
  | cons d rest ih =>
    intro s
    rw [List.foldl_cons, List.map_cons, List.foldl_cons]
    have hkey : ((forwardStep s d).longest, (forwardStep s d).run) =
        lrStep (s.longest, s.run) d.count := by
      unfold forwardStep lrStep tailStep
      by_cases h : 0 < d.count
      · by_cases h2 : s.longest < s.run + 1
        · simp [h, h2]
        · simp [h, h2]
      · simp [h]
    have hres := ih (forwardStep s d)
    rwa [hkey] at hres

theorem computeStreaks_longest (today : Nat) (days : List ContributionDay) :
    (computeStreaks today days).longestStreak =
      longestRun ((sortDays days).map ContributionDay.count) :=
  (forwardFold_lr (sortDays days) initForward).1

/-- C8: for every input day series and every value of today, the current
streak computed by the backward scan never exceeds the longest streak
computed by the forward scan. -/
theorem c8_currentStreak_le_longestStreak (today : Nat)
    (days : List ContributionDay) :
    (computeStreaks today days).currentStreak ≤
      (computeStreaks today days).longestStreak := by
  rw [computeStreaks_currentStreak, computeStreaks_longest]
  generalize sortDays days = l
  unfold specCurrentStreak
  cases hrev : l.reverse with
  | nil => simp
  | cons d rest =>
    have hl : l = rest.reverse ++ [d] := by
      have h2 := congrArg List.reverse hrev
      rw [List.reverse_reverse] at h2
      simpa using h2
    by_cases hskip : d.date = today ∧ d.count = 0
    · simp only [if_pos hskip]
      have h1 : (rest.takeWhile fun x => decide (0 < x.count)).length =
          tailRun (rest.reverse.map ContributionDay.count) := by
        have h2 := takeWhile_reverse_len rest.reverse
        rwa [List.reverse_reverse] at h2
      rw [h1, hl, List.map_append]
      exact Nat.le_trans (tailRun_le_longestRun _)
        (longestRun_append_singleton_le _ d.count)
    · simp only [if_neg hskip]
      have h1 : ((d :: rest).takeWhile fun x => decide (0 < x.count)).length =
          tailRun (l.map ContributionDay.count) := by
        rw [← hrev]; exact takeWhile_reverse_len l
      rw [h1]
      exact tailRun_le_longestRun _

/-! ### Gap-free series: lemmas for the longest-streak characterization -/

theorem mkSeries_date_ge (cs : List Nat) :
    ∀ d0, ∀ e ∈ mkSeries d0 cs, d0 ≤ e.date := by
  induction cs with
  | nil => intro d0 e he; cases he
  | cons c cs ih =>
    intro d0 e he
    rcases List.mem_cons.mp he with rfl | he
    · exact Nat.le_refl _
    · exact Nat.le_trans (Nat.le_succ d0) (ih (d0 + 1) e he)

theorem mkSeries_date_lt (cs : List Nat) :
    ∀ d0, ∀ e ∈ mkSeries d0 cs, e.date < d0 + cs.length := by
  induction cs with
  | nil => intro d0 e he; cases he
  | cons c cs ih =>
    intro d0 e he
    rcases List.mem_cons.mp he with rfl | he
    · simp
    · have h := ih (d0 + 1) e he
      simp only [List.length_cons]
      omega

theorem mkSeries_pairwise (d0 : Nat) (cs : List Nat) :
    (mkSeries d0 cs).Pairwise fun a b => a.date < b.date := by
  induction cs generalizing d0 with
  | nil => exact List.Pairwise.nil
  | cons c cs ih =>
    refine List.pairwise_cons.mpr ⟨?_, ih (d0 + 1)⟩
    intro e he
    have h := mkSeries_date_ge cs (d0 + 1) e he
    show d0 < e.date
    omega

theorem mkSeries_map_count (cs : List Nat) :
    ∀ d0, (mkSeries d0 cs).map ContributionDay.count = cs := by
  induction cs with
  | nil => intro d0; rfl
  | cons c cs ih => intro d0; simp only [mkSeries, List.map_cons, ih]

theorem mkSeries_append_singleton (cs : List Nat) (c : Nat) :
    ∀ d0, mkSeries d0 (cs ++ [c]) = mkSeries d0 cs ++ [⟨d0 + cs.length, c⟩] := by
  induction cs with
  | nil => intro d0; rfl
  | cons c' cs ih =>
    intro d0
    show ContributionDay.mk d0 c' :: mkSeries (d0 + 1) (cs ++ [c]) =
      (ContributionDay.mk d0 c' :: mkSeries (d0 + 1) cs) ++
        [⟨d0 + (cs.length + 1), c⟩]
    rw [ih (d0 + 1)]
    have h : d0 + 1 + cs.length = d0 + (cs.length + 1) := by omega
    rw [h, List.cons_append]

theorem hasContrib_append (l₁ l₂ : List ContributionDay) (t : Nat) :
    hasContrib (l₁ ++ l₂) t = (hasContrib l₁ t || hasContrib l₂ t) := by
  simp [hasContrib, List.any_append]

theorem hasContrib_single_ne {d : Nat} {c : Nat} {t : Nat} (h : t ≠ d) :
    hasContrib [⟨d, c⟩] t = false := by
  simp only [hasContrib, List.any_cons, List.any_nil, Bool.or_false]
  simp only [Bool.and_eq_false_iff]
  left
  simp
  omega

theorem hasContrib_single_self (d c : Nat) :
    hasContrib [⟨d, c⟩] d = decide (0 < c) := by
  simp [hasContrib]

theorem hasContrib_high (cs : List Nat) (d0 t : Nat)
    (h : d0 + cs.length ≤ t) : hasContrib (mkSeries d0 cs) t = false := by
  refine List.any_eq_false.mpr ?_
  intro e he
  have hlt := mkSeries_date_lt cs d0 e he
  simp only [ContributionDay.mk.injEq, Bool.and_eq_true, beq_iff_eq,
    decide_eq_true_eq, not_and]
  intro he2
  omega

theorem runLenAt_nil (t : Nat) : runLenAt [] t = 0 := by
  induction t with
  | zero => rfl
  | succ t ih => simp only [runLenAt, ih]; rfl

theorem runLenAt_append_last (d0 : Nat) (cs : List Nat) (c : Nat) :
    ∀ t, t < d0 + cs.length →
      runLenAt (mkSeries d0 cs ++ [⟨d0 + cs.length, c⟩]) t =
        runLenAt (mkSeries d0 cs) t := by
  intro t
  induction t with
  | zero =>
    intro ht
    have hne : (0 : Nat) ≠ d0 + cs.length := by omega
    simp only [runLenAt, hasContrib_append, hasContrib_single_ne hne,
      Bool.or_false]
  | succ t ih =>
    intro ht
    have hne : t + 1 ≠ d0 + cs.length := by omega
    simp only [runLenAt, hasContrib_append, hasContrib_single_ne hne,
      Bool.or_false, ih (by omega)]

theorem foldr_max_append_singleton (l : List Nat) (a : Nat) :
    (l ++ [a]).foldr Nat.max 0 = Nat.max (l.foldr Nat.max 0) a := by
  induction l with
  | nil => simp [Nat.max_comm]
  | cons x xs ih =>
    simp only [List.cons_append, List.foldr_cons, ih]
    exact (Nat.max_assoc x (List.foldr Nat.max 0 xs) a).symm

theorem tailRun_append_singleton (cs : List Nat) (c : Nat) :
    tailRun (cs ++ [c]) = tailStep (tailRun cs) c := by
  simp [tailRun, List.foldl_append]

theorem longestRun_append_singleton (cs : List Nat) (c : Nat) :
    longestRun (cs ++ [c]) =
      if longestRun cs < tailStep (tailRun cs) c then tailStep (tailRun cs) c
      else longestRun cs := by
  unfold longestRun
  rw [List.foldl_append]
  dsimp [List.foldl, lrStep]
  rw [lrFold_snd]
  rfl

theorem specLongest_mkSeries (cs : List Nat) :
    ∀ d0, specLongestStreak (mkSeries d0 cs) = longestRun cs ∧
      (cs ≠ [] → runLenAt (mkSeries d0 cs) (d0 + cs.length - 1) = tailRun cs) := by
  induction cs using List.reverseRecOn with
  | nil => intro d0; exact ⟨rfl, fun h => absurd rfl h⟩
  | append_singleton cs c ih =>
    intro d0
    have hser := mkSeries_append_singleton cs c d0
    have hA : runLenAt (mkSeries d0 cs ++ [⟨d0 + cs.length, c⟩])
        (d0 + cs.length) = tailStep (tailRun cs) c := by
      cases hdn : d0 + cs.length with
      | zero =>
        have hcs : cs = [] := List.length_eq_zero.mp (by omega)
        subst hcs
        show runLenAt [ContributionDay.mk 0 c] 0 = tailStep (tailRun []) c
        simp only [runLenAt, hasContrib_single_self]
        by_cases hc : 0 < c
        · simp [hc, tailStep, tailRun]
        · simp [hc, tailStep, tailRun]
      | succ t =>
        simp only [runLenAt, hasContrib_append,
          hasContrib_high cs d0 (t + 1) (by omega), hasContrib_single_self,
          Bool.false_or]
        by_cases hc : 0 < c
        · simp only [hc, decide_eq_true_eq, if_pos]
          have hx : (⟨t + 1, c⟩ : ContributionDay) = ⟨d0 + cs.length, c⟩ := by
            rw [hdn]
          rw [hx, runLenAt_append_last d0 cs c t (by omega)]
          by_cases hcs : cs = []
          · subst hcs
            simp [mkSeries, runLenAt_nil, tailStep, tailRun, hc]
          · have h2 := (ih d0).2 hcs
            have ht2 : d0 + cs.length - 1 = t := by omega
            rw [ht2] at h2
            rw [h2]
            simp [tailStep, hc]
        · simp [hc, tailStep]
    have hmap : (mkSeries d0 cs).map
        (fun e => runLenAt (mkSeries d0 cs ++ [⟨d0 + cs.length, c⟩]) e.date) =
        (mkSeries d0 cs).map (fun e => runLenAt (mkSeries d0 cs) e.date) :=
      List.map_congr_left fun e he =>
        runLenAt_append_last d0 cs c e.date (mkSeries_date_lt cs d0 e he)
    have hspec : specLongestStreak (mkSeries d0 (cs ++ [c])) =
        Nat.max (specLongestStreak (mkSeries d0 cs)) (tailStep (tailRun cs) c) := by
      unfold specLongestStreak
      rw [hser, List.map_append, hmap]
      simp only [List.map_cons, List.map_nil]
      rw [foldr_max_append_singleton, hA]
    constructor
    · rw [hspec, (ih d0).1, longestRun_append_singleton]
      by_cases hlt : longestRun cs < tailStep (tailRun cs) c
      · rw [if_pos hlt]
        exact Nat.max_eq_right (Nat.le_of_lt hlt)
      · rw [if_neg hlt]
        exact Nat.max_eq_left (Nat.le_of_not_lt hlt)
    · intro _
      have hlen : d0 + (cs ++ [c]).length - 1 = d0 + cs.length := by
        simp only [List.length_append, List.length_cons, List.length_nil]
        omega
      rw [hser, hlen, hA, tailRun_append_singleton]

/-- C2 counterexample: on the series day 0 → 1, day 2 → 1 (a date gap between
two nonzero-count days), `computeStreaks` returns `longestStreak = 2`, but the
length of a longest maximal run of consecutive calendar days each having at
least one contribution is 1 — a gap does NOT end a streak in the code. -/
theorem c2_counterexample :
    (computeStreaks 100 [⟨0, 1⟩, ⟨2, 1⟩]).longestStreak = 2 ∧
      specLongestStreak [⟨0, 1⟩, ⟨2, 1⟩] = 1 ∧
      (computeStreaks 100 [⟨0, 1⟩, ⟨2, 1⟩]).longestStreak ≠
        specLongestStreak [⟨0, 1⟩, ⟨2, 1⟩] := by
  decide

/-- C2 (amended): for every day series whose entries are exactly one per date
over a contiguous range of consecutive calendar days (counts `cs` on days
`d0, d0 + 1, …`, as the fetch pipeline guarantees), `longestStreak` equals
the length of a longest maximal run of consecutive calendar days in which
every day has count at least one.  For series with date gaps the equality can
fail, because the forward pass only resets on zero counts, never on gaps. -/
theorem c2_amended_longest_gap_free (today d0 : Nat) (cs : List Nat) :
    (computeStreaks today (mkSeries d0 cs)).longestStreak =
      specLongestStreak (mkSeries d0 cs) := by
  rw [computeStreaks_longest, sortDays_eq_self (mkSeries_pairwise d0 cs),
    mkSeries_map_count]
  exact ((specLongest_mkSeries cs d0).1).symm

/-! ### Day deduplication keeps the maximum count per date -/

theorem nmax_zero_right (a : Nat) : Nat.max a 0 = a := Nat.max_zero a

theorem nmax_zero_left (a : Nat) : Nat.max 0 a = a := Nat.zero_max a

theorem nmax_eq_right {a b : Nat} (h : a ≤ b) : Nat.max a b = b :=
  Nat.max_eq_right h

theorem nmax_eq_left {a b : Nat} (h : b ≤ a) : Nat.max a b = a :=
  Nat.max_eq_left h

theorem foldr_max_init (l : List Nat) (a : Nat) :
    l.foldr Nat.max a = Nat.max (l.foldr Nat.max 0) a := by
  induction l with
  | nil => exact (nmax_zero_left a).symm
  | cons x xs ih =>
    simp only [List.foldr_cons, ih]
    exact (Nat.max_assoc x (List.foldr Nat.max 0 xs) a).symm

theorem maxCountFor_append (l₁ l₂ : List ContributionDay) (t : Nat) :
    maxCountFor (l₁ ++ l₂) t =
      Nat.max (maxCountFor l₁ t) (maxCountFor l₂ t) := by
  unfold maxCountFor
  rw [List.filter_append, List.map_append, List.foldr_append, foldr_max_init]

theorem maxCountFor_single_eq (d : ContributionDay) :
    maxCountFor [d] d.date = d.count := by
  unfold maxCountFor
  simp [nmax_zero_right]

theorem maxCountFor_single_ne {d : ContributionDay} {t : Nat}
    (h : d.date ≠ t) : maxCountFor [d] t = 0 := by
  unfold maxCountFor
  simp [h]

theorem upsertDay_none {acc : List ContributionDay} {d : ContributionDay}
    (hf : acc.find? (fun e => e.date == d.date) = none) :
    upsertDay acc d = acc ++ [d] := by
  unfold upsertDay
  rw [hf]

theorem upsertDay_some_lt {acc : List ContributionDay} {d e0 : ContributionDay}
    (hf : acc.find? (fun e => e.date == d.date) = some e0)
    (h : e0.count < d.count) :
    upsertDay acc d = acc.map fun x => if x.date == d.date then d else x := by
  unfold upsertDay
  rw [hf]
  exact if_pos h

theorem upsertDay_some_ge {acc : List ContributionDay} {d e0 : ContributionDay}
    (hf : acc.find? (fun e => e.date == d.date) = some e0)
    (h : ¬ e0.count < d.count) :
    upsertDay acc d = acc := by
  unfold upsertDay
  rw [hf]
  exact if_neg h

theorem upsertDay_invariant {acc seen : List ContributionDay}
    (d : ContributionDay)
    (h1 : (acc.map ContributionDay.date).Nodup)
    (h2 : ∀ e ∈ acc, e.count = maxCountFor seen e.date)
    (h3 : ∀ x ∈ seen, ∃ e ∈ acc, e.date = x.date) :
    ((upsertDay acc d).map ContributionDay.date).Nodup ∧
      (∀ e ∈ upsertDay acc d, e.count = maxCountFor (seen ++ [d]) e.date) ∧
      (∀ x ∈ seen ++ [d], ∃ e ∈ upsertDay acc d, e.date = x.date) := by
  cases hf : acc.find? (fun e => e.date == d.date) with
  | none =>
    rw [upsertDay_none hf]
    have hnone : ∀ e ∈ acc, ¬ e.date = d.date := by
      intro e he
      have h4 := List.find?_eq_none.mp hf e he
      simpa using h4
    have hseen : ∀ x ∈ seen, ¬ x.date = d.date := by
      intro x hx hxd
      obtain ⟨e, he, hed⟩ := h3 x hx
      exact hnone e he (hed.trans hxd)
    have hmax0 : maxCountFor seen d.date = 0 := by
      unfold maxCountFor
      rw [List.filter_eq_nil_iff.mpr ?_]
      · rfl
      · intro a ha
        simpa using hseen a ha
    refine ⟨?_, ?_, ?_⟩
    · rw [List.map_append]
      refine List.Nodup.append h1 (by simp) ?_
      intro a ha hb
      obtain ⟨e, he, hed⟩ := List.mem_map.mp ha
      have hb2 : a = d.date := by simpa using hb
      exact hnone e he (hed.trans hb2)
    · intro e he
      rcases List.mem_append.mp he with he | he
      · rw [maxCountFor_append, maxCountFor_single_ne
          (fun hd => hnone e he hd.symm), nmax_zero_right]
        exact h2 e he
      · have hed : e = d := by simpa using he
        subst hed
        rw [maxCountFor_append, hmax0, maxCountFor_single_eq, nmax_zero_left]
    · intro x hx
      rcases List.mem_append.mp hx with hx | hx
      · obtain ⟨e, he, hed⟩ := h3 x hx
        exact ⟨e, List.mem_append_left _ he, hed⟩
      · have hxd : x = d := by simpa using hx
        subst hxd
        exact ⟨x, List.mem_append_right _ (by simp), rfl⟩
  | some e0 =>
    have he0 : e0 ∈ acc := List.mem_of_find?_eq_some hf
    have he0d : e0.date = d.date := by
      have h4 := List.find?_some hf
      simpa using h4
    by_cases hcnt : e0.count < d.count
    · rw [upsertDay_some_lt hf hcnt]
      have hdates : ((acc.map fun x => if x.date == d.date then d else x).map
          ContributionDay.date) = acc.map ContributionDay.date := by
        rw [List.map_map]
        refine List.map_congr_left ?_
        intro x hx
        by_cases hxd : x.date = d.date
        · simp [Function.comp, hxd]
        · simp [Function.comp, hxd]
      refine ⟨by rw [hdates]; exact h1, ?_, ?_⟩
      · intro e he
        obtain ⟨x, hx, hxe⟩ := List.mem_map.mp he
        by_cases hxd : x.date = d.date
        · have hed : e = d := by rw [← hxe]; simp [hxd]
          rw [hed, maxCountFor_append, maxCountFor_single_eq]
          have hm := h2 e0 he0
          rw [he0d] at hm
          rw [← hm]
          exact (nmax_eq_right (Nat.le_of_lt hcnt)).symm
        · have hed : e = x := by rw [← hxe]; simp [hxd]
          rw [hed, maxCountFor_append, maxCountFor_single_ne
            (fun hd => hxd hd.symm), nmax_zero_right]
          exact h2 x hx
      · intro x hx
        rcases List.mem_append.mp hx with hx | hx
        · obtain ⟨e, he, hed⟩ := h3 x hx
          refine ⟨if e.date == d.date then d else e,
            List.mem_map_of_mem _ he, ?_⟩
          by_cases h5 : e.date = d.date
          · simp only [h5, beq_self_eq_true, if_true]
            rw [← h5, hed]
          · have hb : (e.date == d.date) = false := beq_eq_false_iff_ne.mpr h5
            simp only [hb, Bool.false_eq_true, if_false]
            exact hed
        · have hxd : x = d := by simpa using hx
          refine ⟨if e0.date == d.date then d else e0,
            List.mem_map_of_mem _ he0, ?_⟩
          rw [hxd]
          simp [he0d]
    · rw [upsertDay_some_ge hf hcnt]
      refine ⟨h1, ?_, ?_⟩
      · intro e he
        by_cases hed : e.date = d.date
        · have hee0 : e = e0 :=
            List.inj_on_of_nodup_map h1 he he0 (by rw [hed, he0d])
          rw [hed, maxCountFor_append, maxCountFor_single_eq]
          have hm := h2 e0 he0
          rw [he0d] at hm
          rw [← hm, hee0]
          exact (nmax_eq_left (Nat.le_of_not_lt hcnt)).symm
        · rw [maxCountFor_append, maxCountFor_single_ne
            (fun hd => hed hd.symm), nmax_zero_right]
          exact h2 e he
      · intro x hx
        rcases List.mem_append.mp hx with hx | hx
        · exact h3 x hx
        · have hxd : x = d := by simpa using hx
          rw [hxd]
          exact ⟨e0, he0, he0d⟩

theorem dedup_foldl (l : List ContributionDay) :
    ∀ acc seen,
      (acc.map ContributionDay.date).Nodup →
      (∀ e ∈ acc, e.count = maxCountFor seen e.date) →
      (∀ x ∈ seen, ∃ e ∈ acc, e.date = x.date) →
      ((List.foldl upsertDay acc l).map ContributionDay.date).Nodup ∧
        (∀ e ∈ List.foldl upsertDay acc l,
          e.count = maxCountFor (seen ++ l) e.date) ∧
        (∀ x ∈ seen ++ l, ∃ e ∈ List.foldl upsertDay acc l, e.date = x.date) := by
  induction l with
  | nil =>
    intro acc seen h1 h2 h3
    simpa using ⟨h1, h2, h3⟩
  | cons d rest ih =>
    intro acc seen h1 h2 h3
    obtain ⟨h1', h2', h3'⟩ := upsertDay_invariant d h1 h2 h3
    have hres := ih (upsertDay acc d) (seen ++ [d]) h1' h2' h3'
    rw [List.append_assoc] at hres
    simpa using hres

/-- C5: the deduplicated day series contains at most one entry per calendar
date, the entry kept for each date carries the maximum count observed for
that date in the input, and every observed date is kept. -/
theorem c5_dedup_keeps_max (l : List ContributionDay) :
    ((dedupDays l).map ContributionDay.date).Nodup ∧
      (∀ e ∈ dedupDays l, e.count = maxCountFor l e.date) ∧
      (∀ x ∈ l, ∃ e ∈ dedupDays l, e.date = x.date) := by
  have h := dedup_foldl l [] [] (by simp) (by simp) (by simp)
  simpa using h

/-- C5 witness: the deduplication of `[(day 0, 1), (day 0, 3), (day 1, 2)]`
keeps the entry (day 0, 3), whose count is the maximum observed for day 0. -/
theorem c5_witness :
    (⟨0, 3⟩ : ContributionDay) ∈ dedupDays [⟨0, 1⟩, ⟨0, 3⟩, ⟨1, 2⟩] ∧
      (⟨0, 3⟩ : ContributionDay).count =
        maxCountFor [⟨0, 1⟩, ⟨0, 3⟩, ⟨1, 2⟩] (⟨0, 3⟩ : ContributionDay).date :=
  ⟨by decide,
    (c5_dedup_keeps_max [⟨0, 1⟩, ⟨0, 3⟩, ⟨1, 2⟩]).2.1 ⟨0, 3⟩ (by decide)⟩

/-! ### Top-N repository ranking -/

theorem filter_orderedInsert_contrib (x : RepoContribution)
    (l : List RepoContribution) (c : Nat) :
    (l.orderedInsert contribGE x).filter (fun r => r.contributions == c) =
      if x.contributions = c
      then x :: l.filter fun r => r.contributions == c
      else l.filter fun r => r.contributions == c := by
  have hsplit : ((l.takeWhile fun b => ¬ contribGE x b) ++
      (l.dropWhile fun b => ¬ contribGE x b)) = l :=
    List.takeWhile_append_dropWhile _ _
  rw [List.orderedInsert_eq_take_drop, List.filter_append]
  by_cases hx : x.contributions = c
  · rw [if_pos hx]
    have hnil : ((l.takeWhile fun b => ¬ contribGE x b).filter
        fun r => r.contributions == c) = [] := by
      rw [List.filter_eq_nil_iff]
      intro b hb
      have hp := List.mem_takeWhile_imp hb
      have hlt : x.contributions < b.contributions := by
        simp only [decide_not, Bool.not_eq_true', decide_eq_false_iff_not] at hp
        unfold contribGE at hp
        omega
      simp only [beq_iff_eq]
      omega
    rw [hnil, List.filter_cons_of_pos (by simp [hx]), List.nil_append]
    conv_rhs => rw [← hsplit]
    rw [List.filter_append, hnil, List.nil_append]
  · rw [if_neg hx]
    rw [List.filter_cons_of_neg (by simp [hx])]
    conv_rhs => rw [← hsplit]
    rw [List.filter_append]

theorem filter_sortRepos (l : List RepoContribution) (c : Nat) :
    (sortRepos l).filter (fun r => r.contributions == c) =
      l.filter fun r => r.contributions == c := by
  unfold sortRepos
  induction l with
  | nil => rfl
  | cons x xs ih =>
    show ((List.insertionSort contribGE xs).orderedInsert contribGE x).filter
        (fun r => r.contributions == c) = _
    rw [filter_orderedInsert_contrib, ih]
    by_cases hx : x.contributions = c
    · rw [if_pos hx, List.filter_cons_of_pos (by simp [hx])]
    · rw [if_neg hx, List.filter_cons_of_neg (by simp [hx])]

/-- C6: the top-N ranking is sorted by contribution count in descending
order, is truncated to at most N entries, keeps tied repositories in their
original insertion order (the sort is stable: filtering any fixed
contribution count out of the sorted list returns exactly the original
sublist), and on the three-repository example with counts [10, 30, 20] and
limit 2 it returns the 30- and then the 20-contribution repository. -/
theorem c6_topN_ranking :
    (∀ (repos : List RepoContribution) (n : Nat),
      (rankTop (.int (n : Int)) repos).Pairwise contribGE ∧
        (rankTop (.int (n : Int)) repos).length ≤ n) ∧
      (∀ (repos : List RepoContribution) (c : Nat),
        (sortRepos repos).filter (fun r => r.contributions == c) =
          repos.filter fun r => r.contributions == c) ∧
      rankTop (.int 2)
          [⟨"a", some "ua", 1, 10⟩, ⟨"b", some "ub", 2, 30⟩,
            ⟨"c", some "uc", 3, 20⟩] =
        [⟨"b", some "ub", 2, 30⟩, ⟨"c", some "uc", 3, 20⟩] := by
  refine ⟨?_, filter_sortRepos, by decide⟩
  intro repos n
  constructor
  · exact List.Pairwise.sublist (List.take_sublist _ _)
      (List.sorted_insertionSort contribGE repos)
  · show ((sortRepos repos).take _).length ≤ n
    rw [List.length_take]
    simp only [sliceEnd]
    rw [if_pos (Int.ofNat_nonneg n), Int.toNat_natCast]
    omega

/-- C7: when the merged repository collection is empty, the list handed to
the renderer is exactly one placeholder entry, whose contribution count
is 0 — the renderer always receives at least one row. -/
theorem c7_placeholder_on_empty (limit : JsNumber) :
    finalRepos limit [] = [placeholderRepo] ∧
      placeholderRepo.contributions = 0 := by
  refine ⟨?_, rfl⟩
  unfold finalRepos rankTop sortRepos
  simp [List.insertionSort]

/-! ### Repository merge: first-seen url/stars, summed contributions -/

theorem occs_append (l₁ l₂ : List RepoEntry) (name : String) :
    occs (l₁ ++ l₂) name = occs l₁ name ++ occs l₂ name := by
  simp [occs]

theorem occs_single_nil {e : RepoEntry} {name : String}
    (h : e.isPrivate = true ∨ ¬ e.nameWithOwner = name) : occs [e] name = [] := by
  rcases h with h | h
  · simp [occs, h]
  · simp [occs, h]

theorem occs_single_self {e : RepoEntry} (h : e.isPrivate = false) :
    occs [e] e.nameWithOwner = [e] := by
  simp [occs, h]

theorem upsertRepo_private {acc : List RepoContribution} {e : RepoEntry}
    (h : e.isPrivate = true) : upsertRepo acc e = acc := by
  unfold upsertRepo
  rw [if_pos h]

theorem upsertRepo_new {acc : List RepoContribution} {e : RepoEntry}
    (hp : e.isPrivate = false)
    (hf : acc.find? (fun r => r.nameWithOwner == e.nameWithOwner) = none) :
    upsertRepo acc e =
      acc ++ [⟨e.nameWithOwner, some e.url, e.stargazerCount, e.totalCount⟩] := by
  unfold upsertRepo
  rw [if_neg (by simp [hp]), hf]

theorem upsertRepo_hit {acc : List RepoContribution} {e : RepoEntry}
    {r0 : RepoContribution} (hp : e.isPrivate = false)
    (hf : acc.find? (fun r => r.nameWithOwner == e.nameWithOwner) = some r0) :
    upsertRepo acc e = acc.map fun r =>
      if r.nameWithOwner == e.nameWithOwner
      then { r with contributions := r.contributions + e.totalCount }
      else r := by
  unfold upsertRepo
  rw [if_neg (by simp [hp]), hf]

theorem upsertRepo_invariant {acc : List RepoContribution}
    {seen : List RepoEntry} (e : RepoEntry)
    (h1 : (acc.map RepoContribution.nameWithOwner).Nodup)
    (h2 : ∀ r ∈ acc, ∃ e0, (occs seen r.nameWithOwner).head? = some e0 ∧
      r.url = some e0.url ∧ r.stars = e0.stargazerCount ∧
      r.contributions = ((occs seen r.nameWithOwner).map RepoEntry.totalCount).sum)
    (h3 : ∀ x ∈ seen, x.isPrivate = false →
      ∃ r ∈ acc, r.nameWithOwner = x.nameWithOwner) :
    ((upsertRepo acc e).map RepoContribution.nameWithOwner).Nodup ∧
      (∀ r ∈ upsertRepo acc e, ∃ e0,
        (occs (seen ++ [e]) r.nameWithOwner).head? = some e0 ∧
        r.url = some e0.url ∧ r.stars = e0.stargazerCount ∧
        r.contributions =
          ((occs (seen ++ [e]) r.nameWithOwner).map RepoEntry.totalCount).sum) ∧
      (∀ x ∈ seen ++ [e], x.isPrivate = false →
        ∃ r ∈ upsertRepo acc e, r.nameWithOwner = x.nameWithOwner) := by
  by_cases hpriv : e.isPrivate = true
  · rw [upsertRepo_private hpriv]
    have hocc : ∀ name, occs (seen ++ [e]) name = occs seen name := by
      intro name
      rw [occs_append, occs_single_nil (Or.inl hpriv), List.append_nil]
    refine ⟨h1, ?_, ?_⟩
    · intro r hr
      rw [hocc]
      exact h2 r hr
    · intro x hx hxp
      rcases List.mem_append.mp hx with hx | hx
      · exact h3 x hx hxp
      · have hxe : x = e := by simpa using hx
        rw [hxe, hpriv] at hxp
        cases hxp
  · have hp : e.isPrivate = false := by
      cases h : e.isPrivate
      · rfl
      · exact absurd h hpriv
    cases hf : acc.find? (fun r => r.nameWithOwner == e.nameWithOwner) with
    | none =>
      rw [upsertRepo_new hp hf]
      have hnone : ∀ r ∈ acc, ¬ r.nameWithOwner = e.nameWithOwner := by
        intro r hr
        have h4 := List.find?_eq_none.mp hf r hr
        simpa using h4
      have hocc_old : ∀ name, ¬ e.nameWithOwner = name →
          occs (seen ++ [e]) name = occs seen name := by
        intro name hne
        rw [occs_append, occs_single_nil (Or.inr hne), List.append_nil]
      have hseen_nil : occs seen e.nameWithOwner = [] := by
        rw [occs, List.filter_eq_nil_iff]
        intro x hx
        simp only [Bool.and_eq_true, Bool.not_eq_true', beq_iff_eq, not_and]
        intro hxp hxn
        obtain ⟨r, hr, hrn⟩ := h3 x hx hxp
        exact hnone r hr (hrn.trans hxn)
      have hocc_new : occs (seen ++ [e]) e.nameWithOwner = [e] := by
        rw [occs_append, hseen_nil, occs_single_self hp, List.nil_append]
      refine ⟨?_, ?_, ?_⟩
      · rw [List.map_append]
        refine List.Nodup.append h1 (by simp) ?_
        intro a ha hb
        obtain ⟨r, hr, hrn⟩ := List.mem_map.mp ha
        have hb2 : a = e.nameWithOwner := by simpa using hb
        exact hnone r hr (hrn.trans hb2)
      · intro r hr
        rcases List.mem_append.mp hr with hr | hr
        · obtain ⟨e0, he0, hu, hs, hc⟩ := h2 r hr
          rw [hocc_old r.nameWithOwner (fun h => hnone r hr h.symm)]
          exact ⟨e0, he0, hu, hs, hc⟩
        · have hrr : r =
              ⟨e.nameWithOwner, some e.url, e.stargazerCount, e.totalCount⟩ := by
            simpa using hr
          rw [hrr]
          refine ⟨e, ?_, rfl, rfl, ?_⟩
          · show (occs (seen ++ [e]) e.nameWithOwner).head? = some e
            rw [hocc_new]
            rfl
          · show e.totalCount =
              ((occs (seen ++ [e]) e.nameWithOwner).map RepoEntry.totalCount).sum
            rw [hocc_new]
            simp
      · intro x hx hxp
        rcases List.mem_append.mp hx with hx | hx
        · obtain ⟨r, hr, hrn⟩ := h3 x hx hxp
          exact ⟨r, List.mem_append_left _ hr, hrn⟩
        · have hxe : x = e := by simpa using hx
          refine ⟨⟨e.nameWithOwner, some e.url, e.stargazerCount, e.totalCount⟩,
            List.mem_append_right _ (by simp), ?_⟩
          rw [hxe]
    | some r0 =>
      have hr0 : r0 ∈ acc := List.mem_of_find?_eq_some hf
      have hr0n : r0.nameWithOwner = e.nameWithOwner := by
        have h4 := List.find?_some hf
        simpa using h4
      rw [upsertRepo_hit hp hf]
      have hnames : ((acc.map fun r =>
          if r.nameWithOwner == e.nameWithOwner
          then { r with contributions := r.contributions + e.totalCount }
          else r).map RepoContribution.nameWithOwner) =
          acc.map RepoContribution.nameWithOwner := by
        rw [List.map_map]
        refine List.map_congr_left ?_
        intro r hr
        by_cases hrn : r.nameWithOwner = e.nameWithOwner
        · simp [Function.comp, hrn]
        · simp [Function.comp, hrn]
      refine ⟨by rw [hnames]; exact h1, ?_, ?_⟩
      · intro r hr
        obtain ⟨x, hx, hxr⟩ := List.mem_map.mp hr
        by_cases hxn : x.nameWithOwner = e.nameWithOwner
        · have hxr0 : x = r0 :=
            List.inj_on_of_nodup_map h1 hx hr0 (by rw [hxn, hr0n])
          have hrv : r = { r0 with
              contributions := r0.contributions + e.totalCount } := by
            rw [← hxr, hxr0]
            simp [hr0n]
          obtain ⟨e0, he0, hu, hs, hc⟩ := h2 r0 hr0
          rw [hrv]
          show ∃ e0, (occs (seen ++ [e]) r0.nameWithOwner).head? = some e0 ∧
            r0.url = some e0.url ∧ r0.stars = e0.stargazerCount ∧
            r0.contributions + e.totalCount =
              ((occs (seen ++ [e]) r0.nameWithOwner).map RepoEntry.totalCount).sum
          rw [hr0n, occs_append, occs_single_self hp]
          rw [hr0n] at he0 hc
          cases hocc : occs seen e.nameWithOwner with
          | nil =>
            rw [hocc] at he0
            cases he0
          | cons a tl =>
            rw [hocc] at he0 hc
            have hae : a = e0 := by simpa using he0
            refine ⟨e0, ?_, hu, hs, ?_⟩
            · show ((a :: tl) ++ [e]).head? = some e0
              rw [hae]
              rfl
            · rw [hc]
              simp [List.map_append, List.sum_append]
              omega
        · have hrv : r = x := by
            rw [← hxr]
            simp [hxn]
          rw [hrv, occs_append, occs_single_nil (Or.inr fun h => hxn h.symm),
            List.append_nil]
          exact h2 x hx
      · intro x hx hxp
        rcases List.mem_append.mp hx with hx | hx
        · obtain ⟨r, hr, hrn⟩ := h3 x hx hxp
          refine ⟨if r.nameWithOwner == e.nameWithOwner
            then { r with contributions := r.contributions + e.totalCount }
            else r, List.mem_map_of_mem _ hr, ?_⟩
          by_cases h5 : r.nameWithOwner = e.nameWithOwner
          · rw [if_pos (by simp [h5])]
            exact hrn
          · rw [if_neg (by simp [h5])]
            exact hrn
        · have hxe : x = e := by simpa using hx
          refine ⟨if r0.nameWithOwner == e.nameWithOwner
            then { r0 with contributions := r0.contributions + e.totalCount }
            else r0, List.mem_map_of_mem _ hr0, ?_⟩
          rw [if_pos (by simp [hr0n]), hxe]
          exact hr0n

theorem mergeRepos_foldl (l : List RepoEntry) :
    ∀ (acc : List RepoContribution) (seen : List RepoEntry),
      (acc.map RepoContribution.nameWithOwner).Nodup →
      (∀ r ∈ acc, ∃ e0, (occs seen r.nameWithOwner).head? = some e0 ∧
        r.url = some e0.url ∧ r.stars = e0.stargazerCount ∧
        r.contributions =
          ((occs seen r.nameWithOwner).map RepoEntry.totalCount).sum) →
      (∀ x ∈ seen, x.isPrivate = false →
        ∃ r ∈ acc, r.nameWithOwner = x.nameWithOwner) →
      ∀ r ∈ List.foldl upsertRepo acc l, ∃ e0,
        (occs (seen ++ l) r.nameWithOwner).head? = some e0 ∧
        r.url = some e0.url ∧ r.stars = e0.stargazerCount ∧
        r.contributions =
          ((occs (seen ++ l) r.nameWithOwner).map RepoEntry.totalCount).sum := by
  induction l with
  | nil =>
    intro acc seen h1 h2 h3 r hr
    have h4 := h2 r (by simpa using hr)
    simpa using h4
  | cons d rest ih =>
    intro acc seen h1 h2 h3 r hr
    obtain ⟨h1', h2', h3'⟩ := upsertRepo_invariant d h1 h2 h3
    have hres := ih (upsertRepo acc d) (seen ++ [d]) h1' h2' h3' r
      (by simpa using hr)
    rw [List.append_assoc] at hres
    simpa using hres

/-- C9: when a repository appears in several year windows, the merge updates
only its contributions field (summing the per-window totals over its
non-private occurrences); its url and stars fields keep the values of the
first occurrence and are never updated by later collisions. -/
theorem c9_merge_first_seen_frame (entries : List RepoEntry) :
    ∀ r ∈ mergeRepos entries, ∃ e0,
      (occs entries r.nameWithOwner).head? = some e0 ∧
      r.url = some e0.url ∧ r.stars = e0.stargazerCount ∧
      r.contributions =
        ((occs entries r.nameWithOwner).map RepoEntry.totalCount).sum := by
  intro r hr
  have h := mergeRepos_foldl entries [] [] (by simp) (by simp) (by simp) r hr
  simpa using h

/-- C9 witness: merging repoA over two year windows keeps the first window's
url "u1" and 5 stars while summing 5 + 3 = 8 contributions. -/
theorem c9_witness :
    (⟨"repoA", some "u1", 5, 8⟩ : RepoContribution) ∈
        mergeRepos [⟨"repoA", "u1", 5, false, 5⟩, ⟨"repoA", "u2", 9, false, 3⟩] ∧
      ∃ e0, (occs [⟨"repoA", "u1", 5, false, 5⟩, ⟨"repoA", "u2", 9, false, 3⟩]
            (⟨"repoA", some "u1", 5, 8⟩ : RepoContribution).nameWithOwner).head? =
          some e0 ∧
        (⟨"repoA", some "u1", 5, 8⟩ : RepoContribution).url = some e0.url ∧
        (⟨"repoA", some "u1", 5, 8⟩ : RepoContribution).stars =
          e0.stargazerCount ∧
        (⟨"repoA", some "u1", 5, 8⟩ : RepoContribution).contributions =
          ((occs [⟨"repoA", "u1", 5, false, 5⟩, ⟨"repoA", "u2", 9, false, 3⟩]
            (⟨"repoA", some "u1", 5, 8⟩ : RepoContribution).nameWithOwner).map
            RepoEntry.totalCount).sum :=
  ⟨by decide, c9_merge_first_seen_frame
    [⟨"repoA", "u1", 5, false, 5⟩, ⟨"repoA", "u2", 9, false, 3⟩]
    ⟨"repoA", some "u1", 5, 8⟩ (by decide)⟩

/-- C10 counterexample: with limit −1 and a non-empty merged collection the
truncation is NOT empty — `.slice(0, -1)` drops only the last (smallest)
entry, so the card shows the top repositories, not the placeholder. -/
theorem c10_counterexample :
    finalRepos (.int (-1))
        [⟨"a", some "ua", 1, 10⟩, ⟨"b", some "ub", 2, 30⟩,
          ⟨"c", some "uc", 3, 20⟩] =
      [⟨"b", some "ub", 2, 30⟩, ⟨"c", some "uc", 3, 20⟩] ∧
      finalRepos (.int (-1))
          [⟨"a", some "ua", 1, 10⟩, ⟨"b", some "ub", 2, 30⟩,
            ⟨"c", some "uc", 3, 20⟩] ≠
        [placeholderRepo] := by
  decide

/-- C10 (amended): if the parsed limit is 0 or NaN the truncation is empty
and the renderer receives exactly the placeholder row; a negative limit
−(k+1), however, keeps all but the last k+1 repositories of the sorted
ranking (ECMAScript slice semantics), which is empty only when the collection
has at most k+1 repositories. -/
theorem c10_amended :
    (∀ repos : List RepoContribution,
      finalRepos (.int 0) repos = [placeholderRepo]) ∧
      (∀ repos : List RepoContribution,
        finalRepos .nan repos = [placeholderRepo]) ∧
      (∀ (repos : List RepoContribution) (k : Nat),
        rankTop (.int (-((k : Int) + 1))) repos =
          (sortRepos repos).take (repos.length - (k + 1)) ∧
          ((rankTop (.int (-((k : Int) + 1))) repos).isEmpty = true ↔
            repos.length ≤ k + 1)) := by
  refine ⟨?_, ?_, ?_⟩
  · intro repos
    simp [finalRepos, rankTop, sliceEnd]
  · intro repos
    simp [finalRepos, rankTop, sliceEnd]
  · intro repos k
    have hslice : sliceEnd (sortRepos repos).length (.int (-((k : Int) + 1))) =
        repos.length - (k + 1) := by
      simp only [sliceEnd]
      rw [if_neg (by omega)]
      have h2 : (-(-((k : Int) + 1))).toNat = k + 1 := by omega
      rw [h2]
      have h3 : (sortRepos repos).length = repos.length := by
        simp [sortRepos]
      rw [h3]
    have hfirst : rankTop (.int (-((k : Int) + 1))) repos =
        (sortRepos repos).take (repos.length - (k + 1)) := by
      show (sortRepos repos).take
        (sliceEnd (sortRepos repos).length (.int (-((k : Int) + 1)))) = _
      rw [hslice]
    refine ⟨hfirst, ?_⟩
    rw [hfirst, List.isEmpty_iff, List.take_eq_nil_iff]
    constructor
    · rintro (h | h)
      · omega
      · have h4 := congrArg List.length h
        simp only [sortRepos, List.length_insertionSort, List.length_nil] at h4
        omega
    · intro h
      left
      omega
